import Mathlib

/-!
Shallow embedding, in Lean 4, of the Go programs of the
go-interview-preparation repository, together with proofs about them.

Each namespace below embeds one self-contained Go file (or one group of
functions of such a file):

* `RespondJSON`    — the two respondWithJSON helpers
                     (basic-concepts/07_http_testing.go and the book REST
                     service in data-structures/link-list/linked-list/main.go);
* `StackLL`        — the linked-list stack (data-structures/link-list/main.go);
* `RateLimit`      — RateLimitMiddleware of the middleware demo;
* `BookService`    — the Book store and its HTTP handlers
                     (data-structures/link-list/linked-list/main.go);
* `WordCountDemo`  — WordCount of the testing demo;
* `WorkerPoolDemo` — WorkerPool/worker of
                     concurrency/goroutines_and_channels/main.go;
* `MergeSortDemo`  — mergeSort/merge of the sorting file;
* `QueueLL`        — the linked-list queue
                     (data-structures/link-list/linked-list/main.go);
* `QuickSortDemo`  — quickSort of the sorting file.

Modelling conventions, used throughout:

* Go machine integers are modelled as `Int` (no arithmetic here ever nears
  the 64-bit boundary, and none of the verified properties depend on
  overflow);
* Go slices of int are modelled as `List Int`; an out-of-bounds slice access,
  which panics in Go, is modelled by an `Option` result (`none` = panic);
* loops whose termination is part of what is being proved are given an
  explicit fuel parameter (structural recursion on the fuel); the theorems
  then show a concrete fuel that suffices, which is exactly a termination
  proof for the Go loop;
* mutation of a local variable or of a slice becomes explicit state passing;
* wall-clock time (`time.Now`, `time.Since`) is modelled by a `Nat` number
  of seconds supplied as an explicit parameter, so `time.Minute` is `60`;
* a Go `map[K]V` with its zero-value read semantics becomes a total function
  `K → V` (returning the zero value), or `K → Option V` where the Go code
  distinguishes presence via the comma-ok idiom.
-/

/-! ## The two respondWithJSON helpers (claim C4)

`basic-concepts/07_http_testing.go`:

    func respondWithJSON(w http.ResponseWriter, code int, payload interface{}) {
        response, err := json.Marshal(payload)
        if err != nil { ... return }
        w.Header().Set("Content-Type", "application/json")
        w.WriteHeader(code)
        w.Write(response)
    }

`data-structures/link-list/linked-list/main.go`:

    func respondWithJSON(w http.ResponseWriter, status int, data interface{}) {
        w.Header().Set("Content-Type", "application/json")
        w.WriteHeader(status)
        json.NewEncoder(w).Encode(data)
    }

Both are parametrised here by `marshalled`, the output of `json.Marshal` on
the payload; the claim quantifies only over JSON-serialisable payloads, i.e.
those on which `json.Marshal` succeeds, and for those `json.Marshal` is a
fixed deterministic function of the payload, identical in both files.  The
Go standard library's `Encoder.Encode` writes the `json.Marshal` output
followed by a newline character (and both use the same default HTML
escaping), which is the only difference between the write paths.
-/

namespace RespondJSON

/-- The response observable on the wire: status code, the Content-Type header
if one was set, and the raw body bytes (as a `String`). -/
structure HttpResponse where
  status : Nat
  contentType : Option String
  body : String
  deriving DecidableEq, Repr

/-- respondWithJSON of basic-concepts/07_http_testing.go, on a payload whose
`json.Marshal` output is `marshalled` (so the marshal-error branch is not
taken): sets Content-Type, writes the status code, writes the marshalled
bytes. -/
def respondWithJSON_httpTesting (code : Nat) (marshalled : String) : HttpResponse :=
  { status := code, contentType := some "application/json", body := marshalled }

/-- respondWithJSON of the book REST service: sets Content-Type, writes the
status code, then `json.NewEncoder(w).Encode(data)`, which writes the
`json.Marshal` output of `data` followed by a newline. -/
def respondWithJSON_bookService (status : Nat) (marshalled : String) : HttpResponse :=
  { status := status, contentType := some "application/json",
    body := marshalled ++ "\n" }

end RespondJSON

/-! ## The linked-list stack (claim C6)

`data-structures/link-list/main.go`: a `Stack` holds a `top *Node` pointer
into a singly linked chain of `Node{val int; next *Node}`.  Such a chain,
owned solely by the stack, is exactly a `List Int` (nil pointer = `[]`,
a node = `cons`), and `top` is the head. Methods that mutate the receiver
are modelled as functions returning the new stack state (paired with the
returned value, for `pop`).
-/

namespace StackLL

/-- State of the Go `Stack`: the chain of nodes hanging off `top`. -/
def Stack := List Int

/-- push: allocates `&Node{val: x, next: s.top}` and makes it the top. -/
def push (s : Stack) (x : Int) : Stack := x :: s

/-- pop: returns 0 and leaves the stack alone when `top == nil`; otherwise
returns the top value and advances `top` to `top.next`. Result is
(new stack state, returned value). -/
def pop : Stack → Stack × Int
  | [] => ([], 0)
  | v :: rest => (rest, v)

/-- topNode: returns 0 when `top == nil`, else the top value (no mutation). -/
def topNode : Stack → Int
  | [] => 0
  | v :: _ => v

/-- isEmpty: whether `top == nil`. -/
def isEmpty : Stack → Bool
  | [] => true
  | _ :: _ => false

end StackLL

/-! ## RateLimitMiddleware (claim C1)

From the middleware demo:

    func RateLimitMiddleware(requestsPerMinute int) Middleware {
        requestCounts := make(map[string]int)
        lastResetTime := time.Now()
        var mu = &sync.RWMutex{}
        return func(next http.Handler) http.Handler {
            return http.HandlerFunc(func(w http.ResponseWriter, r *http.Request) {
                clientIP := r.RemoteAddr
                mu.RLock()
                if time.Since(lastResetTime) > time.Minute {
                    mu.RUnlock(); mu.Lock()
                    if time.Since(lastResetTime) > time.Minute {
                        requestCounts = make(map[string]int)
                        lastResetTime = time.Now()
                    }
                    mu.Unlock()
                } else { mu.RUnlock() }
                mu.Lock()
                requestCounts[clientIP]++
                count := requestCounts[clientIP]
                mu.Unlock()
                if count > requestsPerMinute {
                    http.Error(w, "Rate limit exceeded", http.StatusTooManyRequests)
                    return
                }
                next.ServeHTTP(w, r)
            })
        }
    }

The closure state (the request-count map and the last-reset instant) is the
state of a sequential state machine; one HTTP request is one step.  Times
are in seconds, so `time.Minute` is 60 and `time.Since(lastResetTime)` is
`now - lastResetTime`.  The map read uses Go's zero-value semantics, so the
counts are a total function `String → Int` defaulting to 0.
-/

namespace RateLimit

/-- Closure state of the middleware: the per-client request-count map and
the last-reset instant (seconds). -/
structure RLState where
  counts : String → Int
  lastResetTime : Nat

/-- What one request produces: either a 429 with a message and no call to
the wrapped handler, or a pass-through to `next.ServeHTTP`. -/
inductive RLOutcome where
  | limited (status : Nat) (msg : String)
  | passed
  deriving DecidableEq

/-- One step of the middleware on a request from `clientIP` arriving at
instant `now`: the double-checked reset, the increment, and the limit
check exactly as in the Go handler body. -/
def rateLimitStep (requestsPerMinute : Int) (st : RLState) (now : Nat)
    (clientIP : String) : RLState × RLOutcome :=
  let st1 : RLState :=
    if 60 < now - st.lastResetTime then
      { counts := fun _ => 0, lastResetTime := now }
    else st
  let counts2 : String → Int :=
    fun ip => if ip = clientIP then st1.counts ip + 1 else st1.counts ip
  let count := counts2 clientIP
  let st2 : RLState := { counts := counts2, lastResetTime := st1.lastResetTime }
  if requestsPerMinute < count then
    (st2, .limited 429 "Rate limit exceeded")
  else
    (st2, .passed)

end RateLimit

/-! ## The book REST service (claims C3 and C10)

From `data-structures/link-list/linked-list/main.go`.  A `Book` carries
`ID int`, `Title string`, `Author string`, `Price float64`,
`CreatedAt time.Time`.  `Price` (a float64 only ever compared with `<= 0`
here) is modelled as a rational number, and `CreatedAt` as a `Nat` instant.
The `BookStore` is `books map[int]Book` plus `nextID int` (the unused
`idCounter` field is omitted); the map, read with the comma-ok idiom, is a
total function `Int → Option Book`.
-/

namespace BookService

/-- The Book struct. -/
structure Book where
  id : Int
  title : String
  author : String
  price : Rat
  createdAt : Nat
  deriving DecidableEq, Repr

/-- Go's zero value for `Book` (what `store.GetBook` returns on a miss). -/
def Book.zero : Book := { id := 0, title := "", author := "", price := 0, createdAt := 0 }

/-- The BookStore: the `books` map and the `nextID` counter. -/
structure BookStore where
  books : Int → Option Book
  nextID : Int

/-- NewBookStore before its sample inserts: empty map, nextID = 1. -/
def emptyStore : BookStore := { books := fun _ => none, nextID := 1 }

/-- GetBook: map lookup with comma-ok; a miss yields the zero Book and false. -/
def GetBook (bs : BookStore) (id : Int) : Book × Bool :=
  match bs.books id with
  | some b => (b, true)
  | none => (Book.zero, false)

/-- AddBook at instant `now`: overwrites the argument's ID with `nextID` and
its CreatedAt with `time.Now()`, stores it, increments `nextID`, and returns
the assigned ID together with the new store state. -/
def AddBook (bs : BookStore) (book : Book) (now : Nat) : BookStore × Int :=
  let book2 : Book := { book with id := bs.nextID, createdAt := now }
  ({ books := fun k => if k = bs.nextID then some book2 else bs.books k,
     nextID := bs.nextID + 1 }, book2.id)

/-- UpdateBook: returns false (store untouched) when `id` is absent;
otherwise overwrites the argument's ID with `id` and its CreatedAt with the
stored entry's CreatedAt, stores it under `id`, and returns true. -/
def UpdateBook (bs : BookStore) (id : Int) (book : Book) : BookStore × Bool :=
  match bs.books id with
  | none => (bs, false)
  | some old =>
    let book2 : Book := { book with id := id, createdAt := old.createdAt }
    ({ books := fun k => if k = id then some book2 else bs.books k,
       nextID := bs.nextID }, true)

/-- An HTTP response of the handlers: an `http.Error` (status plus message)
or a respondWithJSON carrying a Book body. -/
inductive HResp where
  | err (status : Nat) (msg : String)
  | json (status : Nat) (body : Book)
  deriving DecidableEq

/-- handleCreateBook.  `body` is the result of decoding the request body
(`none` = `json.NewDecoder(r.Body).Decode(&book)` failed); `now` is the
instant at which `AddBook` stamps CreatedAt.  Result: new store state plus
the response written. -/
def handleCreateBook (method : String) (body : Option Book) (now : Nat)
    (store : BookStore) : BookStore × HResp :=
  if method ≠ "POST" then
    (store, .err 405 "Method not allowed")
  else
    match body with
    | none => (store, .err 400 "Invalid request body")
    | some book =>
      if book.title = "" ∨ book.author = "" ∨ book.price ≤ 0 then
        (store, .err 400 "Invalid book data: title, author and price are required")
      else
        let r := AddBook store book now
        let created := (GetBook r.1 r.2).1
        (r.1, .json 201 created)

end BookService

/-! ## WordCount (claim C8)

From the testing demo (the unnamed file that 06_testing_test.go tests):

    func WordCount(s string) int {
        if len(s) == 0 { return 0 }
        count := 1
        for i := 0; i < len(s); i++ {
            if s[i] == ' ' && i > 0 && s[i-1] != ' ' { count++ }
        }
        if s[0] == ' ' { count-- }
        if s[len(s)-1] == ' ' { count-- }
        return count
    }

The string is modelled by its character list (every input involved is
ASCII, where Go's byte indexing and character indexing coincide).  The
`for` loop is structural recursion on `n`, the number of indices still to
visit, with `i` tracking the Go loop variable (`n = s.length - i`).
-/

namespace WordCountDemo

/-- The body of the counting loop: visits indices `i, i+1, ...` while fewer
than `n` steps remain, incrementing `count` at each index `i` with
`s[i] == ' ' && i > 0 && s[i-1] != ' '`. -/
def wcLoop (s : List Char) : Nat → Nat → Int → Int
  | _, 0, count => count
  | i, n + 1, count =>
    wcLoop s (i + 1) n
      (if s.getD i ' ' = ' ' ∧ 0 < i ∧ s.getD (i - 1) ' ' ≠ ' ' then count + 1
       else count)

/-- WordCount. -/
def WordCount (s : List Char) : Int :=
  if s.length = 0 then 0
  else
    let c1 := wcLoop s 0 s.length 1
    let c2 := if s.getD 0 ' ' = ' ' then c1 - 1 else c1
    if s.getD (s.length - 1) ' ' = ' ' then c2 - 1 else c2

end WordCountDemo

/-! ## WorkerPool (claim C5)

From `concurrency/goroutines_and_channels/main.go`: WorkerPool starts 3
workers, sends the jobs 1..10 on a buffered channel, closes it, closes the
results channel once every worker returned, and ranges over the results.

    func worker(id int, jobs <-chan int, results chan<- int) {
        for job := range jobs {
            results <- job * 2
        }
    }

The Go channel runtime delivers every value sent on `jobs` before `close`
to exactly one of the ranging workers, in order within each worker; so a
schedule of the pool is (a) a split of the job sequence into the three
subsequences received by the workers, and (b) an interleaving of the three
result streams into the sequence the collector receives before `close`.
The theorems quantify over both, covering every schedule.
-/

namespace WorkerPoolDemo

/-- numJobs = 10: the values sent on the jobs channel, in order. -/
def jobsSent : List Int := [1, 2, 3, 4, 5, 6, 7, 8, 9, 10]

/-- worker: the results it sends, in order, given the jobs it receives from
the channel, in order (`results <- job * 2` for each). -/
def worker (jobs : List Int) : List Int := jobs.map (fun job => job * 2)

end WorkerPoolDemo

/-! ## mergeSort and merge (claim C9)

From the sorting file:

    func mergeSort(arr []int) []int {
        if len(arr) == 1 { return arr }
        mid := len(arr) / 2
        left := mergeSort(arr[:mid])
        right := mergeSort(arr[mid:])
        return merge(left, right)
    }
    func merge(first []int, second []int) []int {
        mixed := make([]int, len(first)+len(second))
        i := 0; j := 0; k := 0
        for i < len(first) && j < len(second) {
            if first[i] > second[j] { mixed[k] = second[j]; j++ }
            else { mixed[k] = first[i]; i++ }
            k++
        }
        for i < len(first) { mixed[k] = first[i]; k++; i++ }
        for j < len(second) { mixed[k] = second[j]; k++; j++ }
        return mixed
    }

In `mergeLoop` the two cursors are represented by the suffixes
`first[i:]` and `second[j:]` still to be consumed, and `mixed` by the list
of writes in the order they happen (`k` only ever advances past each
written cell); the two drain loops append the untouched suffix.  The fuel
is one merge-loop iteration per written cell, so
`len(first) + len(second)` always suffices (the 0-fuel branch is dead,
as proven below).  `mergeSort` itself does NOT always terminate (that is
the point of claim C9), so it carries a fuel bounding its recursion depth
and answers `none` when the fuel runs out.
-/

namespace MergeSortDemo

/-- The merge loop of `merge`, on the unconsumed suffixes of the two
inputs. -/
def mergeLoop : Nat → List Int → List Int → List Int
  | 0, _, _ => []
  | _ + 1, [], ys => ys
  | _ + 1, x :: xs, [] => x :: xs
  | fuel + 1, x :: xs, y :: ys =>
    if x > y then y :: mergeLoop fuel (x :: xs) ys
    else x :: mergeLoop fuel xs (y :: ys)

/-- merge. -/
def merge (first second : List Int) : List Int :=
  mergeLoop (first.length + second.length) first second

/-- mergeSort, with a fuel bounding the recursion depth; `none` means the
Go program has not returned within that depth (for the empty slice it
never returns: `len(arr) == 1` fails, `mid = 0`, and `arr[:0]` is the
empty slice again). -/
def mergeSortGo : Nat → List Int → Option (List Int)
  | 0, _ => none
  | fuel + 1, arr =>
    if arr.length = 1 then some arr
    else
      let mid := arr.length / 2
      match mergeSortGo fuel (arr.take mid) with
      | none => none
      | some left =>
        match mergeSortGo fuel (arr.drop mid) with
        | none => none
        | some right => some (merge left right)

end MergeSortDemo

/-! ## The linked-list queue (claim C7)

From `data-structures/link-list/linked-list/main.go`:

    type Queue struct { front *Node; rear *Node }

    func (q *Queue) addElement(val int) {
        newNode := &Node{val: val}
        if q.rear == nil { q.front = newNode; q.rear = newNode }
        else { q.rear.next = newNode; q.rear = newNode }
    }

    func (q *Queue) removeElement() int {
        if q.front == nil { return 0 }
        val := q.front.val
        q.front = q.front.next
        if q.front == nil { q.rear = nil }
        return val
    }

Because the claim is about the pointer structure itself (`rear` being the
last node of the chain hanging off `front`), nodes are modelled with
explicit addresses: the heap is a total function from addresses (`Nat`) to
node contents, `&Node{...}` allocates at the next fresh address, and
`front`/`rear` are optional addresses (`nil` = `none`).  `IsChain` says
that a list of addresses is exactly the `next`-chain starting at a given
pointer and ending in `nil`.
-/

namespace QueueLL

/-- Contents of one heap node: `val int; next *Node`. -/
structure QNode where
  val : Int
  next : Option Nat
  deriving DecidableEq, Repr

/-- A queue state: the heap, the two pointers of the Go struct, and the
next fresh address. -/
structure QState where
  mem : Nat → QNode
  front : Option Nat
  rear : Option Nat
  fresh : Nat

/-- `new(Queue)`: both pointers nil (heap contents irrelevant). -/
def emptyQ : QState :=
  { mem := fun _ => ⟨0, none⟩, front := none, rear := none, fresh := 0 }

/-- addElement: allocate `&Node{val: val}`; if `rear == nil` point both
`front` and `rear` at it, else set `rear.next` to it and advance `rear`. -/
def addElement (q : QState) (v : Int) : QState :=
  let a := q.fresh
  let mem1 : Nat → QNode := fun x => if x = a then ⟨v, none⟩ else q.mem x
  match q.rear with
  | none => { mem := mem1, front := some a, rear := some a, fresh := a + 1 }
  | some r =>
    { mem := fun x => if x = r then ⟨(mem1 r).val, some a⟩ else mem1 x,
      front := q.front, rear := some a, fresh := a + 1 }

/-- removeElement: 0 on the empty queue; else return `front.val`, advance
`front`, and reset `rear` to nil if `front` became nil.  Result is
(new queue state, returned value). -/
def removeElement (q : QState) : QState × Int :=
  match q.front with
  | none => (q, 0)
  | some f =>
    let v := (q.mem f).val
    match (q.mem f).next with
    | none => ({ q with front := none, rear := none }, v)
    | some f2 => ({ q with front := some f2 }, v)

/-- One queue operation of a client program. -/
inductive QOp where
  | add (v : Int)
  | remove

/-- Run one operation (the value returned by removeElement is dropped
here; the theorems recover it from the state before the step). -/
def stepQ (q : QState) : QOp → QState
  | .add v => addElement q v
  | .remove => (removeElement q).1

/-- Run a sequence of operations from the empty queue. -/
def runQ (ops : List QOp) : QState := ops.foldl stepQ emptyQ

/-- Reference FIFO queue on plain lists: add appends at the back, remove
takes the head (and does nothing on an empty queue, matching
removeElement). -/
def specStep (σ : List Int) : QOp → List Int
  | .add v => σ ++ [v]
  | .remove => σ.tail

/-- Run the reference queue. -/
def runSpec (ops : List QOp) : List Int := ops.foldl specStep []

/-- `IsChain mem p addrs`: starting at pointer `p` and repeatedly following
`next` in heap `mem` visits exactly the addresses `addrs` and then reaches
nil. -/
inductive IsChain (mem : Nat → QNode) : Option Nat → List Nat → Prop where
  | nil : IsChain mem none []
  | cons {a : Nat} {rest : List Nat} :
      IsChain mem (mem a).next rest → IsChain mem (some a) (a :: rest)

/-- The values stored along a list of addresses. -/
def chainVals (mem : Nat → QNode) (addrs : List Nat) : List Int :=
  addrs.map fun a => (mem a).val

/-- The queue representation invariant: some strictly increasing list of
live addresses (all below `fresh`) forms the chain from `front`, and
`rear` is its last element (so `rear` is nil exactly when the chain is
empty). -/
def QInv (q : QState) (addrs : List Nat) : Prop :=
  IsChain q.mem q.front addrs
  ∧ q.rear = addrs.getLast?
  ∧ addrs.Chain' (· < ·)
  ∧ ∀ a ∈ addrs, a < q.fresh

end QueueLL

/-! ## quickSort (claim C2)

From the sorting file:

    func quickSort(arr []int, low, high int) {
        if low >= high { return }
        s := low
        e := high
        mid := (low + high) / 2
        piviot := arr[mid]
        for s <= e {
            for arr[s] < piviot { s++ }
            for arr[e] > piviot { e-- }
            if s <= e {
                arr[e], arr[s] = arr[s], arr[e]
                s++
                e--
            }
        }
        quickSort(arr, low, e)
        quickSort(arr, s, high)
    }

Indices are Go ints and may leave the slice bounds (`e` reaches `low - 1`);
they are modelled as `Int`, with every element read going through `aget`,
which yields `none` where Go would panic on an out-of-bounds index.  Go's
`/` on int truncates towards zero, i.e. `Int.tdiv`.  Each loop gets a fuel
parameter; the main theorem exhibits concrete fuels under which the whole
computation returns `some`, which both proves termination and rules the
panic branches out.  The two writes of the swap are `aset` on the two
indices just read (hence just bounds-checked) by `aget`.
-/

namespace QuickSortDemo

/-- Reading `arr[i]` with an out-of-range check removed from the value:
total version used to state properties (callers of `aget` get `get0`'s
value exactly when `i` is in range). -/
def get0 (arr : List Int) (i : Int) : Int := arr.getD i.toNat 0

/-- Reading `arr[i]`: `none` models the Go panic on an out-of-range index. -/
def aget (arr : List Int) (i : Int) : Option Int :=
  if 0 ≤ i ∧ i < (arr.length : Int) then some (get0 arr i) else none

/-- Writing `arr[i] = v` (all writes below are at indices that the
surrounding code has just read with `aget`, hence in range). -/
def aset (arr : List Int) (i : Int) (v : Int) : List Int := arr.set i.toNat v

/-- The loop `for arr[s] < piviot { s++ }`. -/
def scanRight : Nat → List Int → Int → Int → Option Int
  | 0, _, _, _ => none
  | fuel + 1, arr, pivot, s =>
    match aget arr s with
    | none => none
    | some v => if v < pivot then scanRight fuel arr pivot (s + 1) else some s

/-- The loop `for arr[e] > piviot { e-- }`. -/
def scanLeft : Nat → List Int → Int → Int → Option Int
  | 0, _, _, _ => none
  | fuel + 1, arr, pivot, e =>
    match aget arr e with
    | none => none
    | some v => if pivot < v then scanLeft fuel arr pivot (e - 1) else some e

/-- The outer `for s <= e { ... }` partition loop; returns the final array
together with the final values of `s` and `e`. -/
def partitionLoop : Nat → List Int → Int → Int → Int → Option (List Int × Int × Int)
  | 0, _, _, _, _ => none
  | fuel + 1, arr, pivot, s, e =>
    if s ≤ e then
      match scanRight (arr.length + 1) arr pivot s with
      | none => none
      | some s2 =>
        match scanLeft (arr.length + 1) arr pivot e with
        | none => none
        | some e2 =>
          if s2 ≤ e2 then
            match aget arr s2, aget arr e2 with
            | some vs, some ve =>
              partitionLoop fuel (aset (aset arr s2 ve) e2 vs) pivot (s2 + 1) (e2 - 1)
            | _, _ => none
          else some (arr, s2, e2)
    else some (arr, s, e)

/-- quickSort on `(arr, low, high)`, with a fuel bounding the recursion
depth. -/
def quickSortAux : Nat → List Int → Int → Int → Option (List Int)
  | 0, _, _, _ => none
  | fuel + 1, arr, low, high =>
    if high ≤ low then some arr
    else
      match aget arr (Int.tdiv (low + high) 2) with
      | none => none
      | some pivot =>
        match partitionLoop (arr.length + 1) arr pivot low high with
        | none => none
        | some (arr2, s, e) =>
          match quickSortAux fuel arr2 low e with
          | none => none
          | some arr3 => quickSortAux fuel arr3 s high

/-- The call the program makes: `quickSort(arr, 0, len(arr)-1)`. -/
def quickSort (arr : List Int) : Option (List Int) :=
  quickSortAux (arr.length + 1) arr 0 ((arr.length : Int) - 1)

/-- Specification vocabulary: every element of `arr` on `[lo, hi]` is at
most `B`. -/
def SegLE (arr : List Int) (lo hi B : Int) : Prop :=
  ∀ k, lo ≤ k → k ≤ hi → get0 arr k ≤ B

/-- Specification vocabulary: every element of `arr` on `[lo, hi]` is at
least `B`. -/
def SegGE (arr : List Int) (lo hi B : Int) : Prop :=
  ∀ k, lo ≤ k → k ≤ hi → B ≤ get0 arr k

/-- Specification vocabulary: `arr2` agrees with `arr` at every valid index
outside `[lo, hi]`. -/
def FrameOutside (arr arr2 : List Int) (lo hi : Int) : Prop :=
  ∀ k, 0 ≤ k → (k < lo ∨ hi < k) → get0 arr2 k = get0 arr k

/-- Specification vocabulary: `arr` is nondecreasing on the index segment
`[lo, hi]`. -/
def SegSorted (arr : List Int) (lo hi : Int) : Prop :=
  ∀ i j, lo ≤ i → i ≤ j → j ≤ hi → get0 arr i ≤ get0 arr j

end QuickSortDemo

/-! # Theorems -/

namespace RespondJSON

/-- C4, counterexample.  The claim asserts byte-identical bodies for every
status code and JSON-serialisable payload; already on a payload whose
`json.Marshal` output is `"null"` (e.g. a nil pointer) and status 200, the
encoder-based book-service helper writes a trailing newline that the
Marshal-based helper does not. -/
theorem c4_bodies_not_identical :
    ¬ (respondWithJSON_httpTesting 200 "null").body
        = (respondWithJSON_bookService 200 "null").body := by
  decide

/-- C4, amended: for every status code and every JSON-serialisable payload,
the two respondWithJSON implementations write the same status code and the
same Content-Type header, and the book-service body is exactly the
HTTP-testing body followed by one newline character (the
`json.NewEncoder(...).Encode` terminator). -/
theorem c4_same_up_to_newline (code : Nat) (marshalled : String) :
    (respondWithJSON_httpTesting code marshalled).status
        = (respondWithJSON_bookService code marshalled).status
    ∧ (respondWithJSON_httpTesting code marshalled).contentType
        = (respondWithJSON_bookService code marshalled).contentType
    ∧ (respondWithJSON_bookService code marshalled).body
        = (respondWithJSON_httpTesting code marshalled).body ++ "\n" :=
  ⟨rfl, rfl, rfl⟩

end RespondJSON

namespace StackLL

/-- C6: the linked-list Stack is a textbook LIFO stack: after `push x`,
`topNode` returns `x` and `pop` returns `x` while restoring the previous
state; on the empty stack (`top == nil`), `pop` and `topNode` both return 0
and `pop` leaves the stack empty. -/
theorem c6_stack_lifo (s : Stack) (x : Int) :
    topNode (push s x) = x
    ∧ pop (push s x) = (s, x)
    ∧ pop ([] : Stack) = (([] : Stack), 0)
    ∧ topNode ([] : Stack) = 0 :=
  ⟨rfl, rfl, rfl, rfl⟩

end StackLL

namespace WordCountDemo

/-- C8: WordCount agrees with its own test table on `""` (0) and on
`"hello world"` (2), but on `"   spaced   words   "` it returns 1, not the
2 that the table-driven test `TestWordCount` expects (and not the number of
maximal runs of non-space characters, which is 2): the loop counts 3, and
the two final adjustments for the leading and the trailing blank each
subtract 1. -/
theorem c8_wordCount_values :
    WordCount ("".toList) = 0
    ∧ WordCount ("hello world".toList) = 2
    ∧ WordCount ("   spaced   words   ".toList) = 1 := by
  refine ⟨rfl, by decide, by decide⟩

end WordCountDemo

namespace WorkerPoolDemo

/-- C5: whatever way the channel runtime splits the ten sent jobs among the
three ranging workers (`hsplit`: the three received subsequences use up the
job sequence exactly), and whatever order the collector receives the
results in before the results channel closes (`hcollect`: the collected
sequence interleaves the three result streams), the multiset collected is
exactly the doubled jobs, i.e. the multiset 2, 4, ..., 20 — so each job is
processed by exactly one worker, once. -/
theorem c5_workerPool_results (j1 j2 j3 collected : List Int)
    (hsplit : (j1 ++ j2 ++ j3).Perm jobsSent)
    (hcollect : collected.Perm (worker j1 ++ worker j2 ++ worker j3)) :
    collected.Perm (jobsSent.map fun j => j * 2)
    ∧ collected.Perm [2, 4, 6, 8, 10, 12, 14, 16, 18, 20] := by
  have hmap : worker j1 ++ worker j2 ++ worker j3
      = (j1 ++ j2 ++ j3).map fun j => j * 2 := by
    simp [worker]
  have h : collected.Perm (jobsSent.map fun j => j * 2) := by
    refine hcollect.trans ?_
    rw [hmap]
    exact hsplit.map _
  exact ⟨h, h.trans (by decide)⟩

/-- C5, witness: a concrete schedule — worker 1 takes jobs 1–4, worker 2
takes 5–7, worker 3 takes 8–10, and the collector happens to see the three
streams back to back. -/
theorem c5_workerPool_results_witness :
    ([2, 4, 6, 8, 10, 12, 14, 16, 18, 20] : List Int).Perm
      (jobsSent.map fun j => j * 2) :=
  (c5_workerPool_results [1, 2, 3, 4] [5, 6, 7] [8, 9, 10]
    [2, 4, 6, 8, 10, 12, 14, 16, 18, 20] (by decide) (by decide)).1

end WorkerPoolDemo

namespace RateLimit

/-- Computation lemma: the reset instant after one step. -/
theorem rateLimitStep_lastResetTime (n : Int) (st : RLState) (now : Nat) (ip : String) :
    (rateLimitStep n st now ip).1.lastResetTime
      = if 60 < now - st.lastResetTime then now else st.lastResetTime := by
  unfold rateLimitStep
  by_cases h1 : 60 < now - st.lastResetTime <;>
    simp only [h1, ite_true, ite_false] <;>
    rw [apply_ite Prod.fst, ite_self]

/-- Computation lemma: the count map after one step — cleared (then the
requester counted once) when a reset fires, otherwise incremented at the
requester only. -/
theorem rateLimitStep_counts (n : Int) (st : RLState) (now : Nat) (ip k : String) :
    (rateLimitStep n st now ip).1.counts k
      = (if 60 < now - st.lastResetTime then 0 else st.counts k)
        + (if k = ip then 1 else 0) := by
  unfold rateLimitStep
  by_cases h1 : 60 < now - st.lastResetTime <;>
    simp only [h1, ite_true, ite_false] <;>
    rw [apply_ite Prod.fst, ite_self] <;>
    by_cases h2 : k = ip <;>
    simp [h2]

/-- C1: while no more than one minute has elapsed since the last reset
(`hmin`), a request from a client whose count already reached `n`
(`hcount`) is answered with 429 "Rate limit exceeded" and the wrapped
handler is not invoked (the outcome is `limited`, not `passed`); the
request is still counted (every client's count is otherwise untouched and
the reset instant keeps its value); and — for every state whatsoever — the
only cleanup the step ever performs on the map is the full reset: when
more than a minute has elapsed the map is rebuilt from scratch (every
client's count cleared, then the current client counted once), and
otherwise no entry ever decreases, the current client's entry being
incremented and all others left exactly alone. -/
theorem c1_rateLimit_blocks (n : Int) (st : RLState) (now : Nat) (ip : String)
    (hmin : now - st.lastResetTime ≤ 60) (hcount : n ≤ st.counts ip) :
    (rateLimitStep n st now ip).2 = RLOutcome.limited 429 "Rate limit exceeded"
    ∧ (rateLimitStep n st now ip).1.lastResetTime = st.lastResetTime
    ∧ (∀ k, (rateLimitStep n st now ip).1.counts k
        = st.counts k + if k = ip then 1 else 0)
    ∧ (∀ (st2 : RLState) (now2 : Nat) (ip2 : String),
        (60 < now2 - st2.lastResetTime →
          (∀ k, (rateLimitStep n st2 now2 ip2).1.counts k
              = if k = ip2 then 1 else 0)
          ∧ (rateLimitStep n st2 now2 ip2).1.lastResetTime = now2)
        ∧ (now2 - st2.lastResetTime ≤ 60 →
          (∀ k, (rateLimitStep n st2 now2 ip2).1.counts k
              = st2.counts k + if k = ip2 then 1 else 0)
          ∧ (rateLimitStep n st2 now2 ip2).1.lastResetTime
              = st2.lastResetTime)) := by
  have hno : ¬ 60 < now - st.lastResetTime := by omega
  have hover : n < st.counts ip + 1 := by omega
  refine ⟨?_, ?_, ?_, ?_⟩
  · simp [rateLimitStep, hno, hover]
  · rw [rateLimitStep_lastResetTime, if_neg hno]
  · intro k
    rw [rateLimitStep_counts, if_neg hno]
  · intro st2 now2 ip2
    constructor
    · intro hgt
      refine ⟨fun k => ?_, ?_⟩
      · rw [rateLimitStep_counts, if_pos hgt]
        by_cases h2 : k = ip2 <;> simp [h2]
      · rw [rateLimitStep_lastResetTime, if_pos hgt]
    · intro hle
      have hno2 : ¬ 60 < now2 - st2.lastResetTime := by omega
      refine ⟨fun k => ?_, ?_⟩
      · rw [rateLimitStep_counts, if_neg hno2]
      · rw [rateLimitStep_lastResetTime, if_neg hno2]

/-- C1, witness: with a limit of 2 requests per minute, a client that
already has 2 counted requests and comes back 30 seconds after the last
reset is answered 429. -/
theorem c1_rateLimit_blocks_witness :
    (rateLimitStep 2 ⟨fun _ => 2, 0⟩ 30 "10.0.0.7").2
      = RLOutcome.limited 429 "Rate limit exceeded" :=
  (c1_rateLimit_blocks 2 ⟨fun _ => 2, 0⟩ 30 "10.0.0.7"
    (by decide) (by decide)).1

end RateLimit

namespace BookService

/-- C3, counterexample.  The claim says every successfully decoded book is
added and answered 201 Created; but `handleCreateBook` validates the
decoded book, and a decoded book with an empty Title (here with a perfectly
good author and price) is answered 400 with the validation message, the
store left exactly as it was — nothing is added. -/
theorem c3_decoded_book_rejected :
    (handleCreateBook "POST" (some ⟨0, "", "Jane Dev", 10, 0⟩) 0 emptyStore).1
        = emptyStore
    ∧ (handleCreateBook "POST" (some ⟨0, "", "Jane Dev", 10, 0⟩) 0 emptyStore).2
        = HResp.err 400 "Invalid book data: title, author and price are required" :=
  ⟨rfl, rfl⟩

/-- C3, amended: handleCreateBook validates decoded books rather than
storing them unconditionally: a decoded book with non-empty Title,
non-empty Author and positive Price is added to the store (under `nextID`,
stamped with the current instant) and answered 201 Created with the stored
book; every decoded book failing that validation is answered 400 Bad
Request and the store is left unchanged. -/
theorem c3_createBook_validates (store : BookStore) (book : Book) (now : Nat)
    (ht : book.title ≠ "") (ha : book.author ≠ "") (hp : 0 < book.price) :
    handleCreateBook "POST" (some book) now store
      = ({ books := fun k => if k = store.nextID
              then some { book with id := store.nextID, createdAt := now }
              else store.books k,
           nextID := store.nextID + 1 },
         HResp.json 201 { book with id := store.nextID, createdAt := now })
    ∧ ∀ b2 : Book, b2.title = "" ∨ b2.author = "" ∨ b2.price ≤ 0 →
        handleCreateBook "POST" (some b2) now store
          = (store,
             HResp.err 400 "Invalid book data: title, author and price are required") := by
  have hval : ¬ (book.title = "" ∨ book.author = "" ∨ book.price ≤ 0) := by
    rintro (h | h | h)
    · exact ht h
    · exact ha h
    · exact absurd hp (not_lt.mpr h)
  constructor
  · simp only [handleCreateBook]
    rw [if_neg (by simp)]
    rw [if_neg hval]
    simp [AddBook, GetBook]
  · intro b2 hbad
    simp only [handleCreateBook]
    rw [if_neg (by simp), if_pos hbad]

/-- C3, witness for the amended claim: creating a valid book in the empty
store answers 201 with the book stored under ID 1, stamped at instant 5. -/
theorem c3_createBook_validates_witness :
    (handleCreateBook "POST" (some ⟨0, "The Go Programming Language", "Donovan", 32, 0⟩)
        5 emptyStore).2
      = HResp.json 201 ⟨1, "The Go Programming Language", "Donovan", 32, 5⟩ := by
  have h := (c3_createBook_validates emptyStore
    ⟨0, "The Go Programming Language", "Donovan", 32, 0⟩ 5
    (by decide) (by decide) (by decide)).1
  rw [h]
  rfl

/-- C10: UpdateBook is frame-preserving and atomic on failure.  When `id`
is present (stored entry `old`), it returns true and afterwards the entry
under `id` has ID `id`, CreatedAt `old.createdAt`, and Title, Author and
Price taken from the argument, while every other key and the `nextID`
counter are untouched; when `id` is absent it returns false and the entire
store is unchanged. -/
theorem c10_updateBook_frame (bs : BookStore) (id : Int) (b : Book) :
    (∀ old, bs.books id = some old →
      (UpdateBook bs id b).2 = true
      ∧ (UpdateBook bs id b).1.books id
          = some { id := id, title := b.title, author := b.author,
                   price := b.price, createdAt := old.createdAt }
      ∧ (∀ k, k ≠ id → (UpdateBook bs id b).1.books k = bs.books k)
      ∧ (UpdateBook bs id b).1.nextID = bs.nextID)
    ∧ (bs.books id = none → UpdateBook bs id b = (bs, false)) := by
  constructor
  · intro old hold
    refine ⟨?_, ?_, ?_, ?_⟩
    · simp [UpdateBook, hold]
    · simp [UpdateBook, hold]
    · intro k hk
      simp [UpdateBook, hold, hk]
    · simp [UpdateBook, hold]
  · intro hnone
    simp [UpdateBook, hnone]

/-- C10, witness: updating the one stored book of a concrete store keeps
its CreatedAt and returns true. -/
theorem c10_updateBook_frame_witness :
    (UpdateBook
        { books := fun k => if k = 3 then some ⟨3, "Go 101", "A. Author", 5, 7⟩ else none,
          nextID := 9 }
        3 ⟨0, "New Title", "New Author", 6, 0⟩).2 = true :=
  ((c10_updateBook_frame
      { books := fun k => if k = 3 then some ⟨3, "Go 101", "A. Author", 5, 7⟩ else none,
        nextID := 9 }
      3 ⟨0, "New Title", "New Author", 6, 0⟩).1
    ⟨3, "Go 101", "A. Author", 5, 7⟩ (by simp)).1

end BookService

namespace MergeSortDemo

/-- The merge loop, given one iteration of fuel per output cell, returns a
permutation of the two inputs together (cf. `mixed` of length
`len(first)+len(second)`). -/
theorem mergeLoop_perm : ∀ (fuel : Nat) (xs ys : List Int),
    xs.length + ys.length ≤ fuel → (mergeLoop fuel xs ys).Perm (xs ++ ys) := by
  intro fuel
  induction fuel with
  | zero =>
    intro xs ys h
    have hx : xs = [] := List.eq_nil_of_length_eq_zero (by omega)
    have hy : ys = [] := List.eq_nil_of_length_eq_zero (by omega)
    subst hx; subst hy
    exact List.Perm.refl _
  | succ n ih =>
    intro xs ys h
    match xs, ys with
    | [], ys => simp [mergeLoop]
    | x :: xs, [] => simp [mergeLoop]
    | x :: xs, y :: ys =>
      simp only [mergeLoop]
      by_cases hxy : x > y
      · rw [if_pos hxy]
        have hrec := ih (x :: xs) ys (by simp at h ⊢; omega)
        exact (hrec.cons y).trans List.perm_middle.symm
      · rw [if_neg hxy]
        have hrec := ih xs (y :: ys) (by simp at h ⊢; omega)
        exact hrec.cons x

/-- The merge loop of two sorted inputs is sorted. -/
theorem mergeLoop_sorted : ∀ (fuel : Nat) (xs ys : List Int),
    xs.length + ys.length ≤ fuel →
    xs.Sorted (· ≤ ·) → ys.Sorted (· ≤ ·) →
    (mergeLoop fuel xs ys).Sorted (· ≤ ·) := by
  intro fuel
  induction fuel with
  | zero => intro xs ys h _ _; simp [mergeLoop]
  | succ n ih =>
    intro xs ys h hxs hys
    match xs, ys with
    | [], ys => simpa [mergeLoop] using hys
    | x :: xs, [] => simpa [mergeLoop] using hxs
    | x :: xs, y :: ys =>
      simp only [mergeLoop]
      rw [List.sorted_cons] at hxs hys
      by_cases hxy : x > y
      · rw [if_pos hxy]
        have hlen : (x :: xs).length + ys.length ≤ n := by simp at h ⊢; omega
        rw [List.sorted_cons]
        refine ⟨?_, ih (x :: xs) ys hlen (List.sorted_cons.mpr hxs) hys.2⟩
        intro b hb
        rw [(mergeLoop_perm n (x :: xs) ys hlen).mem_iff] at hb
        rcases List.mem_append.mp hb with hb | hb
        · rcases List.mem_cons.mp hb with rfl | hb
          · omega
          · have := hxs.1 b hb; omega
        · exact hys.1 b hb
      · rw [if_neg hxy]
        have hlen : xs.length + (y :: ys).length ≤ n := by simp at h ⊢; omega
        rw [List.sorted_cons]
        refine ⟨?_, ih xs (y :: ys) hlen hxs.2 (List.sorted_cons.mpr hys)⟩
        intro b hb
        rw [(mergeLoop_perm n xs (y :: ys) hlen).mem_iff] at hb
        rcases List.mem_append.mp hb with hb | hb
        · exact hxs.1 b hb
        · rcases List.mem_cons.mp hb with rfl | hb
          · omega
          · have := hys.1 b hb; omega

/-- merge permutes the concatenation of its inputs. -/
theorem merge_perm (first second : List Int) :
    (merge first second).Perm (first ++ second) :=
  mergeLoop_perm _ _ _ le_rfl

/-- merge of two sorted slices is sorted. -/
theorem merge_sorted (first second : List Int)
    (h1 : first.Sorted (· ≤ ·)) (h2 : second.Sorted (· ≤ ·)) :
    (merge first second).Sorted (· ≤ ·) :=
  mergeLoop_sorted _ _ _ le_rfl h1 h2

/-- On the empty slice, mergeSort recurses forever: no recursion depth
whatsoever makes it return (`len(arr) == 1` fails, `mid = 0`, and the
first recursive call is on `arr[:0]`, the empty slice again). -/
theorem mergeSortGo_nil : ∀ fuel : Nat, mergeSortGo fuel ([] : List Int) = none := by
  intro fuel
  induction fuel with
  | zero => rfl
  | succ n ih => simp [mergeSortGo, ih]

/-- C9, counterexample: the claim asserts termination (with a sorted
permutation) on every slice including the empty one, but on the empty
slice `mergeSort` never returns at any recursion depth. -/
theorem c9_mergeSort_empty_diverges :
    ¬ ∃ fuel out, mergeSortGo fuel ([] : List Int) = some out := by
  rintro ⟨fuel, out, h⟩
  rw [mergeSortGo_nil] at h
  exact Option.noConfusion h

/-- With fuel at least the slice length, mergeSort of a nonempty slice
returns a sorted permutation of it. -/
theorem mergeSortGo_total : ∀ (fuel : Nat) (arr : List Int),
    arr ≠ [] → arr.length ≤ fuel →
    ∃ out, mergeSortGo fuel arr = some out
      ∧ out.Perm arr ∧ out.Sorted (· ≤ ·) := by
  intro fuel
  induction fuel with
  | zero =>
    intro arr hne hlen
    exact absurd (List.eq_nil_of_length_eq_zero (by omega)) hne
  | succ n ih =>
    intro arr hne hlen
    by_cases h1 : arr.length = 1
    · obtain ⟨a, rfl⟩ := List.length_eq_one.mp h1
      exact ⟨[a], by simp [mergeSortGo], List.Perm.refl _, List.sorted_singleton a⟩
    · have hpos : arr.length ≠ 0 := by
        intro h0
        exact hne (List.eq_nil_of_length_eq_zero h0)
      have hlen2 : 2 ≤ arr.length := by omega
      have hmid1 : 1 ≤ arr.length / 2 := by omega
      have hmidlt : arr.length / 2 < arr.length := by omega
      have htlen : (arr.take (arr.length / 2)).length = arr.length / 2 := by
        simp [List.length_take]
        omega
      have hdlen : (arr.drop (arr.length / 2)).length = arr.length - arr.length / 2 := by
        simp
      obtain ⟨left, hleft, hlp, hls⟩ :=
        ih (arr.take (arr.length / 2))
          (by intro h0; rw [h0] at htlen; simp at htlen; omega)
          (by omega)
      obtain ⟨right, hright, hrp, hrs⟩ :=
        ih (arr.drop (arr.length / 2))
          (by intro h0; rw [h0] at hdlen; simp at hdlen; omega)
          (by omega)
      refine ⟨merge left right, ?_, ?_, merge_sorted left right hls hrs⟩
      · simp only [mergeSortGo]
        rw [if_neg h1, hleft, hright]
      · refine (merge_perm left right).trans ?_
        refine ((hlp.append hrp).trans ?_)
        rw [List.take_append_drop]

/-- C9, amended: for every NONEMPTY integer slice, mergeSort terminates
(recursion depth `len(arr)` always suffices) and returns a nondecreasing
permutation of its input; on the empty slice it never terminates. -/
theorem c9_mergeSort_sorts_nonempty (arr : List Int) (h : arr ≠ []) :
    ∃ out, mergeSortGo arr.length arr = some out
      ∧ out.Perm arr ∧ out.Sorted (· ≤ ·) :=
  mergeSortGo_total arr.length arr h le_rfl

/-- C9, witness: on `[3, 1, 2]` (depth 3) mergeSort returns, and the
returned slice is the sorted permutation `[1, 2, 3]`. -/
theorem c9_mergeSort_sorts_nonempty_witness :
    mergeSortGo 3 [3, 1, 2] = some [1, 2, 3]
    ∧ ∃ out, mergeSortGo ([3, 1, 2] : List Int).length [3, 1, 2] = some out
        ∧ out.Perm [3, 1, 2] ∧ out.Sorted (· ≤ ·) :=
  ⟨by decide, c9_mergeSort_sorts_nonempty [3, 1, 2] (by decide)⟩

end MergeSortDemo

namespace QueueLL

/-- Inversion: a chain listing no addresses starts at nil. -/
theorem isChain_nil_front {mem : Nat → QNode} {p : Option Nat}
    (h : IsChain mem p ([] : List Nat)) : p = none := by
  cases h
  rfl

/-- Inversion: a chain listing nothing can only hang off a nil pointer. -/
theorem isChain_none_nil {mem : Nat → QNode} {l : List Nat}
    (h : IsChain mem none l) : l = [] := by
  cases h
  rfl

/-- Inversion: a chain listing `a :: rest` starts at `a`, and `rest` is the
chain hanging off `a`'s next pointer. -/
theorem isChain_cons_front {mem : Nat → QNode} {p : Option Nat} {a : Nat}
    {rest : List Nat} (h : IsChain mem p (a :: rest)) :
    p = some a ∧ IsChain mem (mem a).next rest := by
  cases h with
  | cons h => exact ⟨rfl, h⟩

/-- The last address of a nonempty address list is one of its members. -/
theorem mem_of_getLast?_eq : ∀ (l : List Nat) (r : Nat), l.getLast? = some r → r ∈ l := by
  intro l
  induction l with
  | nil => intro r h; simp at h
  | cons a rest ih =>
    intro r h
    cases rest with
    | nil =>
      simp at h
      simp [h]
    | cons b t =>
      rw [List.getLast?_cons_cons] at h
      exact List.mem_cons_of_mem a (ih r h)

/-- A chain is unaffected by changing the heap outside its addresses. -/
theorem isChain_congr (mem mem2 : Nat → QNode) :
    ∀ (addrs : List Nat) (p : Option Nat), IsChain mem p addrs →
      (∀ x ∈ addrs, mem2 x = mem x) → IsChain mem2 p addrs := by
  intro addrs
  induction addrs with
  | nil =>
    intro p hchain _
    rw [isChain_nil_front hchain]
    exact IsChain.nil
  | cons a rest ih =>
    intro p hchain hagree
    obtain ⟨hp, hrest⟩ := isChain_cons_front hchain
    rw [hp]
    refine IsChain.cons ?_
    rw [hagree a (List.mem_cons_self a rest)]
    exact ih _ hrest fun x hx => hagree x (List.mem_cons_of_mem a hx)

/-- Linking one fresh node after the last node of a chain extends the chain
by that node: the core of addElement's `rear.next = newNode`. -/
theorem isChain_snoc (mem mem2 : Nat → QNode) (v : Int) (r a : Nat)
    (hra : r ≠ a)
    (hmem2r : mem2 r = ⟨(mem r).val, some a⟩)
    (hmem2a : mem2 a = ⟨v, none⟩) :
    ∀ (addrs : List Nat) (p : Option Nat),
      IsChain mem p addrs → addrs.getLast? = some r → addrs.Nodup →
      a ∉ addrs →
      (∀ x ∈ addrs, x ≠ r → mem2 x = mem x) →
      IsChain mem2 p (addrs ++ [a]) := by
  intro addrs
  induction addrs with
  | nil => intro p _ hlast _ _ _; simp at hlast
  | cons a0 rest ih =>
    intro p hchain hlast hnodup hanot hagree
    obtain ⟨hp, hrest⟩ := isChain_cons_front hchain
    rw [hp]
    refine IsChain.cons ?_
    cases rest with
    | nil =>
      have ha0 : a0 = r := by simpa using hlast
      subst ha0
      rw [hmem2r]
      simp only [List.nil_append]
      refine IsChain.cons ?_
      rw [hmem2a]
      exact IsChain.nil
    | cons b t =>
      have hlast2 : (b :: t).getLast? = some r := by
        rwa [List.getLast?_cons_cons] at hlast
      have hrmem : r ∈ b :: t := mem_of_getLast?_eq _ _ hlast2
      have ha0r : a0 ≠ r := by
        intro hEq
        subst hEq
        exact (List.nodup_cons.mp hnodup).1 hrmem
      rw [hagree a0 (List.mem_cons_self _ _) ha0r]
      exact ih _ hrest hlast2 (List.Nodup.of_cons hnodup)
        (fun hmem => hanot (List.mem_cons_of_mem _ hmem))
        (fun x hx hxr => hagree x (List.mem_cons_of_mem _ hx) hxr)

/-- Computation of addElement when the queue was empty (`rear == nil`). -/
theorem addElement_none (q : QState) (v : Int) (hq : q.rear = none) :
    addElement q v
      = { mem := fun x => if x = q.fresh then ⟨v, none⟩ else q.mem x,
          front := some q.fresh, rear := some q.fresh, fresh := q.fresh + 1 } := by
  simp only [addElement, hq]

/-- Computation of addElement when the queue was nonempty, for a rear
address distinct from the fresh one (always the case for live states). -/
theorem addElement_some (q : QState) (v : Int) (r : Nat) (hq : q.rear = some r)
    (hr : r ≠ q.fresh) :
    addElement q v
      = { mem := fun x =>
            if x = r then ⟨(q.mem r).val, some q.fresh⟩
            else if x = q.fresh then ⟨v, none⟩ else q.mem x,
          front := q.front, rear := some q.fresh, fresh := q.fresh + 1 } := by
  simp only [addElement, hq]
  congr 1
  funext x
  by_cases hxr : x = r
  · subst hxr
    simp [hr]
  · simp [hxr]

/-- Computation of removeElement on the empty queue. -/
theorem removeElement_front_none (q : QState) (hq : q.front = none) :
    removeElement q = (q, 0) := by
  simp [removeElement, hq]

/-- Computation of removeElement when the front node is the last one. -/
theorem removeElement_last (q : QState) (f : Nat) (hq : q.front = some f)
    (hn : (q.mem f).next = none) :
    removeElement q = ({ q with front := none, rear := none }, (q.mem f).val) := by
  simp [removeElement, hq, hn]

/-- Computation of removeElement when the front node has a successor. -/
theorem removeElement_step (q : QState) (f f2 : Nat) (hq : q.front = some f)
    (hn : (q.mem f).next = some f2) :
    removeElement q = ({ q with front := some f2 }, (q.mem f).val) := by
  simp [removeElement, hq, hn]

end QueueLL


namespace QueueLL

/-- A one-node chain: a node whose next pointer is nil. -/
theorem isChain_singleton (mem : Nat → QNode) (a : Nat) (h : (mem a).next = none) :
    IsChain mem (some a) [a] := by
  refine IsChain.cons ?_
  rw [h]
  exact IsChain.nil

/-- addElement preserves the representation invariant, appending the fresh
address to the chain and the added value to the abstract contents. -/
theorem addElement_inv (q : QState) (v : Int) (addrs : List Nat)
    (h : QInv q addrs) :
    QInv (addElement q v) (addrs ++ [q.fresh])
    ∧ chainVals (addElement q v).mem (addrs ++ [q.fresh])
        = chainVals q.mem addrs ++ [v] := by
  obtain ⟨hchain, hrear, hinc, hlt⟩ := h
  have hnodup : addrs.Nodup := (List.chain'_iff_pairwise.mp hinc).nodup
  have hfreshnot : q.fresh ∉ addrs := fun hmem => lt_irrefl _ (hlt _ hmem)
  cases hq : q.rear with
  | none =>
    have haddrs : addrs = [] := by
      rw [hq] at hrear
      exact List.getLast?_eq_none_iff.mp hrear.symm
    subst haddrs
    have hmem : (addElement q v).mem
        = fun x => if x = q.fresh then ⟨v, none⟩ else q.mem x := by
      rw [addElement_none q v hq]
    have hfront : (addElement q v).front = some q.fresh := by
      rw [addElement_none q v hq]
    have hrear2 : (addElement q v).rear = some q.fresh := by
      rw [addElement_none q v hq]
    have hfresh : (addElement q v).fresh = q.fresh + 1 := by
      rw [addElement_none q v hq]
    refine ⟨⟨?_, ?_, ?_, ?_⟩, ?_⟩
    · rw [hmem, hfront]
      simp only [List.nil_append]
      exact isChain_singleton _ _ (by simp)
    · rw [hrear2]
      simp
    · simp
    · rw [hfresh]
      intro x hx
      simp at hx
      omega
    · rw [hmem]
      simp [chainVals]
  | some r =>
    have hlast : addrs.getLast? = some r := by rw [← hrear, hq]
    have hrmem : r ∈ addrs := mem_of_getLast?_eq _ _ hlast
    have hrlt : r < q.fresh := hlt _ hrmem
    have hra : r ≠ q.fresh := Nat.ne_of_lt hrlt
    have heq := addElement_some q v r hq hra
    have hmem : (addElement q v).mem
        = fun x => if x = r then ⟨(q.mem r).val, some q.fresh⟩
            else if x = q.fresh then ⟨v, none⟩ else q.mem x := by
      rw [heq]
    have hfront : (addElement q v).front = q.front := by rw [heq]
    have hrear2 : (addElement q v).rear = some q.fresh := by rw [heq]
    have hfresh : (addElement q v).fresh = q.fresh + 1 := by rw [heq]
    refine ⟨⟨?_, ?_, ?_, ?_⟩, ?_⟩
    · rw [hmem, hfront]
      refine isChain_snoc q.mem _ v r q.fresh hra (by simp)
        (by simp [Ne.symm hra]) addrs q.front hchain hlast hnodup hfreshnot ?_
      intro x hx hxr
      have hxa : x ≠ q.fresh := Nat.ne_of_lt (hlt _ hx)
      simp [hxr, hxa]
    · rw [hrear2]
      simp
    · rw [List.chain'_append]
      refine ⟨hinc, by simp, ?_⟩
      intro x hx y hy
      simp at hy
      subst hy
      rw [hlast] at hx
      simp at hx
      subst hx
      exact hrlt
    · rw [hfresh]
      intro x hx
      rcases List.mem_append.mp hx with hx | hx
      · have := hlt _ hx
        omega
      · simp at hx
        omega
    · rw [hmem]
      simp only [chainVals, List.map_append]
      congr 1
      · refine List.map_congr_left ?_
        intro x hx
        by_cases hxr : x = r
        · subst hxr
          simp
        · have hxa : x ≠ q.fresh := Nat.ne_of_lt (hlt _ hx)
          simp [hxr, hxa]
      · simp [Ne.symm hra]

/-- removeElement preserves the representation invariant, dropping the
front address from the chain and returning its value; the heap itself is
untouched. -/
theorem removeElement_inv (q : QState) (addrs : List Nat) (h : QInv q addrs) :
    (addrs = [] → removeElement q = (q, 0))
    ∧ (∀ f rest, addrs = f :: rest →
        QInv (removeElement q).1 rest
        ∧ (removeElement q).2 = (q.mem f).val
        ∧ (removeElement q).1.mem = q.mem) := by
  obtain ⟨hchain, hrear, hinc, hlt⟩ := h
  constructor
  · intro haddrs
    subst haddrs
    exact removeElement_front_none q (isChain_nil_front hchain)
  · intro f rest haddrs
    subst haddrs
    obtain ⟨hfront, hrest⟩ := isChain_cons_front hchain
    cases hn : (q.mem f).next with
    | none =>
      rw [hn] at hrest
      have hrestnil : rest = [] := isChain_none_nil hrest
      subst hrestnil
      rw [removeElement_last q f hfront hn]
      exact ⟨⟨IsChain.nil, rfl, by simp, by simp⟩, rfl, rfl⟩
    | some f2 =>
      rw [hn] at hrest
      obtain ⟨b, t, rfl⟩ : ∃ b t, rest = b :: t := by
        cases hrest with
        | cons h2 => exact ⟨_, _, rfl⟩
      obtain ⟨hb, _⟩ := isChain_cons_front hrest
      obtain rfl : f2 = b := Option.some.inj hb
      rw [removeElement_step q f f2 hfront hn]
      refine ⟨⟨hrest, ?_, hinc.tail, ?_⟩, rfl, rfl⟩
      · rw [List.getLast?_cons_cons] at hrear
        exact hrear
      · intro x hx
        exact hlt _ (List.mem_cons_of_mem f hx)

/-- One client operation preserves the invariant, and the abstract contents
track the reference FIFO queue. -/
theorem stepQ_sim (q : QState) (σ : List Int) (op : QOp) (addrs : List Nat)
    (h : QInv q addrs) (habs : chainVals q.mem addrs = σ) :
    ∃ addrs2, QInv (stepQ q op) addrs2
      ∧ chainVals (stepQ q op).mem addrs2 = specStep σ op := by
  cases op with
  | add v =>
    obtain ⟨hinv, hvals⟩ := addElement_inv q v addrs h
    refine ⟨addrs ++ [q.fresh], hinv, ?_⟩
    show chainVals (addElement q v).mem (addrs ++ [q.fresh]) = σ ++ [v]
    rw [hvals, habs]
  | remove =>
    obtain ⟨hempty, hcons⟩ := removeElement_inv q addrs h
    cases addrs with
    | nil =>
      have hstep : stepQ q QOp.remove = q := by
        show (removeElement q).1 = q
        rw [hempty rfl]
      refine ⟨[], ?_, ?_⟩
      · rw [hstep]
        exact h
      · rw [hstep, ← habs]
        rfl
    | cons f rest =>
      obtain ⟨hinv, _, hmem⟩ := hcons f rest rfl
      refine ⟨rest, hinv, ?_⟩
      show chainVals (removeElement q).1.mem rest = σ.tail
      rw [hmem, ← habs]
      rfl

/-- Every run of client operations from the empty queue reaches a state
satisfying the invariant, whose abstract contents are the reference FIFO
queue's contents. -/
theorem runQ_inv (ops : List QOp) :
    ∃ addrs, QInv (runQ ops) addrs
      ∧ chainVals (runQ ops).mem addrs = runSpec ops := by
  suffices h : ∀ (ops : List QOp) (q : QState) (σ : List Int) (addrs : List Nat),
      QInv q addrs → chainVals q.mem addrs = σ →
      ∃ addrs2, QInv (ops.foldl stepQ q) addrs2
        ∧ chainVals (ops.foldl stepQ q).mem addrs2 = ops.foldl specStep σ by
    exact h ops emptyQ [] [] ⟨IsChain.nil, rfl, by simp, by simp⟩ rfl
  intro ops
  induction ops with
  | nil =>
    intro q σ addrs h habs
    exact ⟨addrs, h, habs⟩
  | cons op rest ih =>
    intro q σ addrs h habs
    obtain ⟨addrs2, h2, habs2⟩ := stepQ_sim q σ op addrs h habs
    exact ih (stepQ q op) (specStep σ op) addrs2 h2 habs2

end QueueLL

namespace QueueLL

/-- C7: after every sequence of addElement/removeElement operations from
the empty Queue, some address list `addrs` witnesses the invariant: the
chain of nodes hanging off `front` is `addrs` and `rear` is its last node
(so `front == nil` exactly when `rear == nil`); the values along the chain
are exactly those of the reference FIFO list queue, so values are removed
in insertion order: the next removeElement returns the oldest inserted
value (0 when empty), removeElement on the empty queue returns 0 and
leaves the queue empty, and removeElement of the last remaining element
resets both `front` and `rear` to nil. -/
theorem c7_queue_invariant (ops : List QOp) :
    ∃ addrs : List Nat,
      IsChain (runQ ops).mem (runQ ops).front addrs
      ∧ (runQ ops).rear = addrs.getLast?
      ∧ ((runQ ops).front = none ↔ (runQ ops).rear = none)
      ∧ chainVals (runQ ops).mem addrs = runSpec ops
      ∧ (removeElement (runQ ops)).2 = (runSpec ops).headD 0
      ∧ (runSpec ops = [] → removeElement (runQ ops) = (runQ ops, 0))
      ∧ (∀ x, runSpec ops = [x] →
          (removeElement (runQ ops)).1.front = none
          ∧ (removeElement (runQ ops)).1.rear = none) := by
  obtain ⟨addrs, hinv, habs⟩ := runQ_inv ops
  obtain ⟨hchain, hrear, hinc, hlt⟩ := hinv
  obtain ⟨hempty2, hcons2⟩ :=
    removeElement_inv (runQ ops) addrs ⟨hchain, hrear, hinc, hlt⟩
  refine ⟨addrs, hchain, hrear, ?_, habs, ?_, ?_, ?_⟩
  · constructor
    · intro hf
      cases addrs with
      | nil => exact hrear.trans rfl
      | cons a rest =>
        obtain ⟨hp, _⟩ := isChain_cons_front hchain
        rw [hf] at hp
        exact Option.noConfusion hp
    · intro hr
      have haddrs : addrs = [] :=
        List.getLast?_eq_none_iff.mp (hrear.symm.trans hr)
      subst haddrs
      exact isChain_nil_front hchain
  · cases addrs with
    | nil =>
      rw [hempty2 rfl, ← habs]
      rfl
    | cons f rest =>
      obtain ⟨_, hval, _⟩ := hcons2 f rest rfl
      rw [hval, ← habs]
      rfl
  · intro hσ
    have haddrs : addrs = [] := by
      have hmapnil : chainVals (runQ ops).mem addrs = [] := habs.trans hσ
      simpa [chainVals] using hmapnil
    exact hempty2 haddrs
  · intro x hσ
    have hlen : addrs.length = 1 := by
      have hl : (chainVals (runQ ops).mem addrs).length = 1 := by
        rw [habs, hσ]
        rfl
      simpa [chainVals] using hl
    obtain ⟨f, rfl⟩ := List.length_eq_one.mp hlen
    obtain ⟨hfront, hrest⟩ := isChain_cons_front hchain
    have hn : ((runQ ops).mem f).next = none := isChain_nil_front hrest
    rw [removeElement_last (runQ ops) f hfront hn]
    exact ⟨rfl, rfl⟩

end QueueLL

namespace QuickSortDemo

/-- aset preserves length. -/
theorem length_aset (arr : List Int) (i : Int) (v : Int) :
    (aset arr i v).length = arr.length :=
  List.length_set arr i.toNat v

/-- Reading back the cell just written. -/
theorem get0_aset_eq (arr : List Int) (i : Int) (v : Int)
    (h0 : 0 ≤ i) (h1 : i < (arr.length : Int)) :
    get0 (aset arr i v) i = v := by
  have hlt : i.toNat < arr.length := by omega
  unfold get0 aset
  rw [List.getD_eq_getElem _ _ (by simpa using hlt)]
  exact List.getElem_set_self _

/-- Reading a cell other than the one written. -/
theorem get0_aset_ne (arr : List Int) (i j : Int) (v : Int)
    (h0i : 0 ≤ i) (h0j : 0 ≤ j) (hij : i ≠ j) :
    get0 (aset arr i v) j = get0 arr j := by
  have hne : i.toNat ≠ j.toNat := by omega
  unfold get0 aset
  by_cases hj : j.toNat < arr.length
  · rw [List.getD_eq_getElem _ _ (by simpa using hj),
      List.getD_eq_getElem _ _ hj]
    exact List.getElem_set_ne hne _
  · rw [List.getD_eq_default _ _ (by simpa using not_lt.mp hj),
      List.getD_eq_default _ _ (not_lt.mp hj)]

/-- An in-bounds read succeeds with the total read's value. -/
theorem aget_eq (arr : List Int) (i : Int)
    (h0 : 0 ≤ i) (h1 : i < (arr.length : Int)) :
    aget arr i = some (get0 arr i) := by
  unfold aget
  rw [if_pos ⟨h0, h1⟩]

/-- Writing a cell's own value back is the identity. -/
theorem set_getD_self (l : List Int) (n : Nat) (h : n < l.length) :
    l.set n (l.getD n 0) = l := by
  rw [List.getD_eq_getElem _ _ h]
  apply List.ext_getElem
  · simp
  · intro i h1 h2
    by_cases hin : n = i
    · subst hin
      simp
    · rw [List.getElem_set_ne hin]

/-- Moving the element at index `n` to the front while writing `x` into its
cell permutes a cons. -/
theorem cons_set_perm : ∀ (xs : List Int) (n : Nat) (x : Int), n < xs.length →
    (xs.getD n 0 :: xs.set n x).Perm (x :: xs) := by
  intro xs
  induction xs with
  | nil => intro n x h; simp at h
  | cons y ys ih =>
    intro n x h
    match n with
    | 0 => exact List.Perm.swap x y ys
    | n + 1 =>
      show (ys.getD n 0 :: y :: ys.set n x).Perm (x :: y :: ys)
      exact (List.Perm.swap y _ _).trans
        (((ih n x (by simpa using h)).cons y).trans (List.Perm.swap x y ys))

/-- Swapping two cells at Nat indices `a < b` permutes the list. -/
theorem swap_perm_lt : ∀ (l : List Int) (a b : Nat), a < b → b < l.length →
    ((l.set a (l.getD b 0)).set b (l.getD a 0)).Perm l := by
  intro l
  induction l with
  | nil => intro a b _ h; simp at h
  | cons x xs ih =>
    intro a b hab hb
    match a, b with
    | 0, m + 1 =>
      show ((xs.getD m 0 :: xs).set (m + 1) x).Perm (x :: xs)
      show (xs.getD m 0 :: xs.set m x).Perm (x :: xs)
      exact cons_set_perm xs m x (by simpa using hb)
    | k + 1, m + 1 =>
      show (x :: (xs.set k (xs.getD m 0)).set m (xs.getD k 0)).Perm (x :: xs)
      exact (ih k m (by omega) (by simpa using hb)).cons x

/-- Swapping two in-bounds cells permutes the list (Nat indices). -/
theorem swap_perm_nat (l : List Int) (a b : Nat) (ha : a < l.length)
    (hb : b < l.length) :
    ((l.set a (l.getD b 0)).set b (l.getD a 0)).Perm l := by
  rcases Nat.lt_trichotomy a b with h | h | h
  · exact swap_perm_lt l a b h hb
  · subst h
    rw [List.set_set, set_getD_self l a ha]
  · rw [List.set_comm _ _ _ (by omega)]
    exact swap_perm_lt l b a h ha

/-- The Go swap `arr[e], arr[s] = arr[s], arr[e]` permutes the slice. -/
theorem swap_perm (arr : List Int) (i j : Int)
    (h0i : 0 ≤ i) (hi : i < (arr.length : Int))
    (h0j : 0 ≤ j) (hj : j < (arr.length : Int)) :
    (aset (aset arr i (get0 arr j)) j (get0 arr i)).Perm arr :=
  swap_perm_nat arr i.toNat j.toNat (by omega) (by omega)

end QuickSortDemo

namespace QuickSortDemo

/-- Specification of `for arr[s] < piviot { s++ }`: given an in-range
witness index `i` at or after `s` whose element is at least the pivot, the
scan terminates in bounds at the first index `s2` with
`arr[s2] >= piviot`, without reading past `i`. -/
theorem scanRight_spec : ∀ (fuel : Nat) (arr : List Int) (pivot s i : Int),
    0 ≤ s → s ≤ i → i < (arr.length : Int) → pivot ≤ get0 arr i →
    (i - s).toNat < fuel →
    ∃ s2, scanRight fuel arr pivot s = some s2
      ∧ s ≤ s2 ∧ s2 ≤ i ∧ pivot ≤ get0 arr s2
      ∧ ∀ k, s ≤ k → k < s2 → get0 arr k < pivot := by
  intro fuel
  induction fuel with
  | zero =>
    intro arr pivot s i _ _ _ _ hfuel
    exact absurd hfuel (Nat.not_lt_zero _)
  | succ n ih =>
    intro arr pivot s i h0s hsi hilen hpi hfuel
    have hslen : s < (arr.length : Int) := lt_of_le_of_lt hsi hilen
    simp only [scanRight, aget_eq arr s h0s hslen]
    by_cases hv : get0 arr s < pivot
    · rw [if_pos hv]
      have hsi2 : s < i := by
        rcases lt_or_eq_of_le hsi with h | h
        · exact h
        · subst h
          omega
      obtain ⟨s2, heq, h1, h2, h3, h4⟩ :=
        ih arr pivot (s + 1) i (by omega) (by omega) hilen hpi (by omega)
      refine ⟨s2, heq, by omega, h2, h3, ?_⟩
      intro k hk1 hk2
      rcases lt_or_eq_of_le hk1 with h | h
      · exact h4 k (by omega) hk2
      · subst h
        exact hv
    · rw [if_neg hv]
      exact ⟨s, rfl, le_refl s, hsi, not_lt.mp hv, fun k hk1 hk2 => absurd hk1 (by omega)⟩

/-- Specification of `for arr[e] > piviot { e-- }`: given an in-range
witness index `j` at or before `e` whose element is at most the pivot, the
scan terminates in bounds at the first index `e2` (going down) with
`arr[e2] <= piviot`, without reading below `j`. -/
theorem scanLeft_spec : ∀ (fuel : Nat) (arr : List Int) (pivot e j : Int),
    0 ≤ j → j ≤ e → e < (arr.length : Int) → get0 arr j ≤ pivot →
    (e - j).toNat < fuel →
    ∃ e2, scanLeft fuel arr pivot e = some e2
      ∧ j ≤ e2 ∧ e2 ≤ e ∧ get0 arr e2 ≤ pivot
      ∧ ∀ k, e2 < k → k ≤ e → pivot < get0 arr k := by
  intro fuel
  induction fuel with
  | zero =>
    intro arr pivot e j _ _ _ _ hfuel
    exact absurd hfuel (Nat.not_lt_zero _)
  | succ n ih =>
    intro arr pivot e j h0j hje helen hjp hfuel
    have h0e : 0 ≤ e := le_trans h0j hje
    simp only [scanLeft, aget_eq arr e h0e helen]
    by_cases hv : pivot < get0 arr e
    · rw [if_pos hv]
      have hje2 : j < e := by
        rcases lt_or_eq_of_le hje with h | h
        · exact h
        · subst h
          omega
      obtain ⟨e2, heq, h1, h2, h3, h4⟩ :=
        ih arr pivot (e - 1) j h0j (by omega) (by omega) hjp (by omega)
      refine ⟨e2, heq, h1, by omega, h3, ?_⟩
      intro k hk1 hk2
      rcases lt_or_eq_of_le hk2 with h | h
      · exact h4 k hk1 (by omega)
      · subst h
        exact hv
    · rw [if_neg hv]
      exact ⟨e, rfl, hje, le_refl e, not_lt.mp hv, fun k hk1 hk2 => absurd hk1 (by omega)⟩

end QuickSortDemo

namespace QuickSortDemo

/-- Fuel arithmetic for the partition loop: one iteration shrinks the
untreated window `[s, e]` by at least two. -/
theorem fuel_step (s e s2 e2 : Int) (n : Nat) (h1 : s ≤ s2) (h2 : e2 ≤ e)
    (h3 : s ≤ e) (h : (e + 1 - s).toNat < n + 1) :
    (e2 - 1 + 1 - (s2 + 1)).toNat < n := by
  omega

/-- Full specification of the partition loop.  Under the loop invariant
(prefix below `s` at most the pivot, suffix above `e` at least the pivot,
index bounds, and — whenever the guard holds — an in-range witness on each
side), the loop terminates with `e2 < s2`, permuting the slice, touching
nothing outside `[low, high]`, establishing the two-sided partition, and
preserving every uniform bound on the segment; moreover if some index in
`[s, e]` holds the pivot value, at least one swap happens, so `s` strictly
increases and `e` strictly decreases. -/
theorem partitionLoop_spec : ∀ (fuel : Nat) (arr : List Int) (pivot low high s e : Int),
    0 ≤ low → high < (arr.length : Int) →
    low ≤ s → e ≤ high → s ≤ high + 1 → low - 1 ≤ e →
    (∀ k, low ≤ k → k < s → get0 arr k ≤ pivot) →
    (∀ k, e < k → k ≤ high → pivot ≤ get0 arr k) →
    (s ≤ e →
      (∃ i, s ≤ i ∧ i ≤ high ∧ pivot ≤ get0 arr i)
      ∧ (∃ j, low ≤ j ∧ j ≤ e ∧ get0 arr j ≤ pivot)) →
    (e + 1 - s).toNat < fuel →
    ∃ arr2 s2 e2, partitionLoop fuel arr pivot s e = some (arr2, s2, e2)
      ∧ arr2.Perm arr
      ∧ arr2.length = arr.length
      ∧ FrameOutside arr arr2 low high
      ∧ e2 < s2 ∧ s ≤ s2 ∧ e2 ≤ e ∧ s2 ≤ high + 1 ∧ low - 1 ≤ e2
      ∧ (∀ k, low ≤ k → k < s2 → get0 arr2 k ≤ pivot)
      ∧ (∀ k, e2 < k → k ≤ high → pivot ≤ get0 arr2 k)
      ∧ (∀ B, SegLE arr low high B → SegLE arr2 low high B)
      ∧ (∀ B, SegGE arr low high B → SegGE arr2 low high B)
      ∧ ((∃ m, s ≤ m ∧ m ≤ e ∧ get0 arr m = pivot) → s + 1 ≤ s2 ∧ e2 ≤ e - 1) := by
  intro fuel
  induction fuel with
  | zero =>
    intro arr pivot low high s e _ _ _ _ _ _ _ _ _ hfuel
    exact absurd hfuel (Nat.not_lt_zero _)
  | succ n ih =>
    intro arr pivot low high s e h0low hhlen hls hehigh hsh1 hle1 hP1 hP2 hW hfuel
    simp only [partitionLoop]
    by_cases hguard : s ≤ e
    · rw [if_pos hguard]
      obtain ⟨⟨i, hi1, hi2, hi3⟩, ⟨j, hj1, hj2, hj3⟩⟩ := hW hguard
      obtain ⟨s2, hseq, hs21, hs22, hs23, hs24⟩ :=
        scanRight_spec (arr.length + 1) arr pivot s i (by omega) hi1
          (by omega) hi3 (by omega)
      obtain ⟨e2, heeq, he21, he22, he23, he24⟩ :=
        scanLeft_spec (arr.length + 1) arr pivot e j (by omega) hj2
          (by omega) hj3 (by omega)
      simp only [hseq, heeq]
      by_cases hcross : s2 ≤ e2
      · rw [if_pos hcross]
        have h0s2 : 0 ≤ s2 := by omega
        have hs2len : s2 < (arr.length : Int) := by omega
        have h0e2 : 0 ≤ e2 := by omega
        have he2len : e2 < (arr.length : Int) := by omega
        simp only [aget_eq arr s2 h0s2 hs2len, aget_eq arr e2 h0e2 he2len]
        set arr1 := aset (aset arr s2 (get0 arr e2)) e2 (get0 arr s2) with harr1
        have hlen1 : arr1.length = arr.length := by
          rw [harr1, length_aset, length_aset]
        have hget_e2 : get0 arr1 e2 = get0 arr s2 := by
          rw [harr1, get0_aset_eq _ _ _ h0e2 (by rw [length_aset]; exact he2len)]
        have hget_s2 : get0 arr1 s2 = get0 arr e2 := by
          by_cases hse : s2 = e2
          · rw [harr1, ← hse]
            show get0 ((arr.set s2.toNat (get0 arr s2)).set s2.toNat (get0 arr s2)) s2
              = get0 arr s2
            rw [List.set_set]
            show get0 (aset arr s2 (get0 arr s2)) s2 = get0 arr s2
            rw [get0_aset_eq _ _ _ h0s2 hs2len]
          · rw [harr1, get0_aset_ne _ e2 s2 _ h0e2 h0s2 (Ne.symm hse),
              get0_aset_eq _ _ _ h0s2 hs2len]
        have hget_other : ∀ k, 0 ≤ k → k ≠ s2 → k ≠ e2 → get0 arr1 k = get0 arr k := by
          intro k h0k hk1 hk2
          rw [harr1, get0_aset_ne _ e2 k _ h0e2 h0k (Ne.symm hk2),
            get0_aset_ne _ s2 k _ h0s2 h0k (Ne.symm hk1)]
        have hP1' : ∀ k, low ≤ k → k < s2 + 1 → get0 arr1 k ≤ pivot := by
          intro k hk1 hk2
          by_cases hks2 : k = s2
          · rw [hks2, hget_s2]
            exact he23
          · have hkne2 : k ≠ e2 := by omega
            rw [hget_other k (by omega) hks2 hkne2]
            by_cases hks : k < s
            · exact hP1 k hk1 hks
            · exact le_of_lt (hs24 k (by omega) (by omega))
        have hP2' : ∀ k, e2 - 1 < k → k ≤ high → pivot ≤ get0 arr1 k := by
          intro k hk1 hk2
          by_cases hke2 : k = e2
          · rw [hke2, hget_e2]
            exact hs23
          · have hkns2 : k ≠ s2 := by omega
            rw [hget_other k (by omega) hkns2 hke2]
            by_cases hke : k ≤ e
            · exact le_of_lt (he24 k (by omega) hke)
            · exact hP2 k (by omega) hk2
        have hW' : s2 + 1 ≤ e2 - 1 →
            (∃ i2, s2 + 1 ≤ i2 ∧ i2 ≤ high ∧ pivot ≤ get0 arr1 i2)
            ∧ (∃ j2, low ≤ j2 ∧ j2 ≤ e2 - 1 ∧ get0 arr1 j2 ≤ pivot) := by
          intro hg
          constructor
          · exact ⟨e2, by omega, by omega, by rw [hget_e2]; exact hs23⟩
          · exact ⟨s2, by omega, by omega, by rw [hget_s2]; exact he23⟩
        have hhlen1 : high < (arr1.length : Int) := by
          rw [hlen1]
          exact hhlen
        have harg1 : low ≤ s2 + 1 := by omega
        have harg2 : e2 - 1 ≤ high := by omega
        have harg3 : s2 + 1 ≤ high + 1 := by omega
        have harg4 : low - 1 ≤ e2 - 1 := by omega
        have hfuel2 : (e2 - 1 + 1 - (s2 + 1)).toNat < n :=
          fuel_step s e s2 e2 n hs21 he22 hguard hfuel
        obtain ⟨arr3, s3, e3, hreq, hperm3, hlen3, hframe3, hlt3, hs3, he3,
            hs3h, hle3, hP13, hP23, htrLE3, htrGE3, _⟩ :=
          ih arr1 pivot low high (s2 + 1) (e2 - 1) h0low hhlen1 harg1
            harg2 harg3 harg4 hP1' hP2' hW' hfuel2
        have hswap : arr1.Perm arr := by
          rw [harr1]
          exact swap_perm arr s2 e2 h0s2 hs2len h0e2 he2len
        have hs2low : low ≤ s2 := by omega
        have hs2high : s2 ≤ high := by omega
        have he2low : low ≤ e2 := by omega
        have he2high : e2 ≤ high := by omega
        have htr1LE : ∀ B, SegLE arr low high B → SegLE arr1 low high B := by
          intro B hB k hk1 hk2
          by_cases hks2 : k = s2
          · rw [hks2, hget_s2]
            exact hB e2 he2low he2high
          · by_cases hke2 : k = e2
            · rw [hke2, hget_e2]
              exact hB s2 hs2low hs2high
            · rw [hget_other k (by omega) hks2 hke2]
              exact hB k hk1 hk2
        have htr1GE : ∀ B, SegGE arr low high B → SegGE arr1 low high B := by
          intro B hB k hk1 hk2
          by_cases hks2 : k = s2
          · rw [hks2, hget_s2]
            exact hB e2 he2low he2high
          · by_cases hke2 : k = e2
            · rw [hke2, hget_e2]
              exact hB s2 hs2low hs2high
            · rw [hget_other k (by omega) hks2 hke2]
              exact hB k hk1 hk2
        refine ⟨arr3, s3, e3, hreq, hperm3.trans hswap, hlen3.trans hlen1, ?_,
          hlt3, by omega, by omega, hs3h, hle3, hP13, hP23,
          fun B hB => htrLE3 B (htr1LE B hB), fun B hB => htrGE3 B (htr1GE B hB),
          fun _ => ⟨by omega, by omega⟩⟩
        intro k h0k hout
        rw [hframe3 k h0k hout]
        exact hget_other k h0k (by omega) (by omega)
      · rw [if_neg hcross]
        refine ⟨arr, s2, e2, rfl, List.Perm.refl _, rfl, fun k _ _ => rfl,
          by omega, hs21, he22, by omega, by omega, ?_, ?_,
          fun B hB => hB, fun B hB => hB, ?_⟩
        · intro k hk1 hk2
          by_cases hks : k < s
          · exact hP1 k hk1 hks
          · exact le_of_lt (hs24 k (by omega) (by omega))
        · intro k hk1 hk2
          by_cases hke : k ≤ e
          · exact le_of_lt (he24 k (by omega) hke)
          · exact hP2 k (by omega) hk2
        · rintro ⟨m, hm1, hm2, hm3⟩
          exfalso
          have hm4 : s2 ≤ m := by
            by_contra hc
            have := hs24 m hm1 (by omega)
            omega
          have hm5 : m ≤ e2 := by
            by_contra hc
            have := he24 m (by omega) hm2
            omega
          omega
    · rw [if_neg hguard]
      refine ⟨arr, s, e, rfl, List.Perm.refl _, rfl, fun k _ _ => rfl,
        by omega, le_refl s, le_refl e, hsh1, hle1, hP1, hP2,
        fun B hB => hB, fun B hB => hB, ?_⟩
      rintro ⟨m, hm1, hm2, _⟩
      omega

end QuickSortDemo

namespace QuickSortDemo

/-- Full specification of quickSort's recursion: with fuel exceeding
`high - low`, the call returns; the result permutes the slice, touches
nothing outside `[low, high]`, is nondecreasing on `[low, high]`, and
preserves every uniform bound on that segment. -/
theorem quickSortAux_spec : ∀ (fuel : Nat) (arr : List Int) (low high : Int),
    0 ≤ low → high < (arr.length : Int) → (high - low).toNat < fuel →
    ∃ out, quickSortAux fuel arr low high = some out
      ∧ out.Perm arr
      ∧ out.length = arr.length
      ∧ FrameOutside arr out low high
      ∧ SegSorted out low high
      ∧ (∀ B, SegLE arr low high B → SegLE out low high B)
      ∧ (∀ B, SegGE arr low high B → SegGE out low high B) := by
  intro fuel
  induction fuel with
  | zero =>
    intro arr low high _ _ hfuel
    exact absurd hfuel (Nat.not_lt_zero _)
  | succ n ih =>
    intro arr low high h0low hhlen hfuel
    simp only [quickSortAux]
    by_cases hlh : high ≤ low
    · rw [if_pos hlh]
      refine ⟨arr, rfl, List.Perm.refl _, rfl, fun k _ _ => rfl, ?_,
        fun B hB => hB, fun B hB => hB⟩
      intro i j hi hij hj
      have hij2 : i = j := by omega
      rw [hij2]
    · rw [if_neg hlh]
      have htdiv : Int.tdiv (low + high) 2 = (low + high) / 2 :=
        Int.tdiv_eq_ediv (by omega) (by omega)
      set mid := Int.tdiv (low + high) 2 with hmid
      have hmid1 : low ≤ mid := by
        rw [htdiv]
        omega
      have hmid2 : mid ≤ high := by
        rw [htdiv]
        omega
      have h0mid : 0 ≤ mid := by omega
      have hmidlen : mid < (arr.length : Int) := by omega
      simp only [aget_eq arr mid h0mid hmidlen]
      obtain ⟨arr1, s, e, hpeq, hperm1, hlen1, hframe1, hes, hss, hee, hsh1,
          hle1, hP1, hP2, htrLE1, htrGE1, hfirst⟩ :=
        partitionLoop_spec (arr.length + 1) arr (get0 arr mid) low high low high
          h0low hhlen (le_refl low) (le_refl high) (by omega) (by omega)
          (fun k hk1 hk2 => absurd hk2 (not_lt.mpr hk1))
          (fun k hk1 hk2 => absurd hk1 (not_lt.mpr hk2))
          (fun _ => ⟨⟨mid, hmid1, hmid2, le_refl _⟩, ⟨mid, hmid1, hmid2, le_refl _⟩⟩)
          (by omega)
      obtain ⟨hs_lo, he_hi⟩ := hfirst ⟨mid, hmid1, hmid2, rfl⟩
      simp only [hpeq]
      have hhlen_e : e < (arr1.length : Int) := by
        rw [hlen1]
        omega
      obtain ⟨out1, h1eq, h1perm, h1len, h1frame, h1sort, h1trLE, h1trGE⟩ :=
        ih arr1 low e h0low hhlen_e (by omega)
      simp only [h1eq]
      have h0s : 0 ≤ s := by omega
      have hhlen_s : high < (out1.length : Int) := by
        rw [h1len, hlen1]
        exact hhlen
      obtain ⟨out2, h2eq, h2perm, h2len, h2frame, h2sort, h2trLE, h2trGE⟩ :=
        ih out1 s high h0s hhlen_s (by omega)
      have hA : ∀ k, low ≤ k → k ≤ e → get0 out2 k ≤ get0 arr mid := by
        intro k hk1 hk2
        rw [h2frame k (by omega) (Or.inl (by omega))]
        exact h1trLE (get0 arr mid)
          (fun k2 hk21 hk22 => hP1 k2 hk21 (by omega)) k hk1 hk2
      have hC : ∀ k, s ≤ k → k ≤ high → get0 arr mid ≤ get0 out2 k := by
        intro k hk1 hk2
        refine h2trGE (get0 arr mid) ?_ k hk1 hk2
        intro k2 hk21 hk22
        rw [h1frame k2 (by omega) (Or.inr (by omega))]
        exact hP2 k2 (by omega) hk22
      have hB : ∀ k, e < k → k < s → get0 out2 k = get0 arr mid := by
        intro k hk1 hk2
        rw [h2frame k (by omega) (Or.inl hk2), h1frame k (by omega) (Or.inr hk1)]
        exact le_antisymm (hP1 k (by omega) hk2) (hP2 k hk1 (by omega))
      have hsort1 : ∀ i j, low ≤ i → i ≤ j → j ≤ e → get0 out2 i ≤ get0 out2 j := by
        intro i j hi hij hj
        rw [h2frame i (by omega) (Or.inl (by omega)),
          h2frame j (by omega) (Or.inl (by omega))]
        exact h1sort i j hi hij hj
      refine ⟨out2, h2eq, (h2perm.trans h1perm).trans hperm1, ?_, ?_, ?_, ?_, ?_⟩
      · rw [h2len, h1len, hlen1]
      · intro k h0k hout
        rcases hout with h | h
        · rw [h2frame k h0k (Or.inl (by omega)), h1frame k h0k (Or.inl h),
            hframe1 k h0k (Or.inl h)]
        · rw [h2frame k h0k (Or.inr h), h1frame k h0k (Or.inr (by omega)),
            hframe1 k h0k (Or.inr h)]
      · intro i j hi hij hj
        by_cases hje : j ≤ e
        · exact hsort1 i j hi hij hje
        · by_cases his : s ≤ i
          · exact h2sort i j his hij hj
          · by_cases hie : i ≤ e
            · by_cases hjs : s ≤ j
              · exact le_trans (hA i hi hie) (hC j hjs hj)
              · rw [hB j (by omega) (by omega)]
                exact hA i hi hie
            · rw [hB i (by omega) (by omega)]
              by_cases hjs : s ≤ j
              · exact hC j hjs hj
              · rw [hB j (by omega) (by omega)]
      · intro B hB0
        have hT1 : SegLE arr1 low high B := htrLE1 B hB0
        have hT2 : SegLE out1 low high B := by
          intro k hk1 hk2
          by_cases hke : k ≤ e
          · exact h1trLE B (fun k2 h1 h2 => hT1 k2 h1 (by omega)) k hk1 hke
          · rw [h1frame k (by omega) (Or.inr (by omega))]
            exact hT1 k hk1 hk2
        intro k hk1 hk2
        by_cases hks : s ≤ k
        · exact h2trLE B (fun k2 h1 h2 => hT2 k2 (by omega) h2) k hks hk2
        · rw [h2frame k (by omega) (Or.inl (by omega))]
          exact hT2 k hk1 hk2
      · intro B hB0
        have hT1 : SegGE arr1 low high B := htrGE1 B hB0
        have hT2 : SegGE out1 low high B := by
          intro k hk1 hk2
          by_cases hke : k ≤ e
          · exact h1trGE B (fun k2 h1 h2 => hT1 k2 h1 (by omega)) k hk1 hke
          · rw [h1frame k (by omega) (Or.inr (by omega))]
            exact hT1 k hk1 hk2
        intro k hk1 hk2
        by_cases hks : s ≤ k
        · exact h2trGE B (fun k2 h1 h2 => hT2 k2 (by omega) h2) k hks hk2
        · rw [h2frame k (by omega) (Or.inl (by omega))]
          exact hT2 k hk1 hk2

/-- Reading a valid index through the Int-indexed total read is `List.get`. -/
theorem get0_eq_get (l : List Int) (a : Fin l.length) :
    get0 l ((a : Nat) : Int) = l.get a := by
  unfold get0
  have h : (((a : Nat) : Int)).toNat = (a : Nat) := by omega
  rw [h, List.getD_eq_getElem _ _ a.isLt, List.get_eq_getElem]

/-- C2: for every integer slice `arr`, the call `quickSort(arr, 0,
len(arr)-1)` terminates — recursion depth `len(arr)+1`, partition fuel
`len(arr)+1` and scan fuel `len(arr)+1` all suffice, and no out-of-bounds
access (modelled as `none`) occurs — and leaves the slice a nondecreasing
permutation of its initial contents. -/
theorem c2_quickSort_sorts (arr : List Int) :
    ∃ out, quickSort arr = some out ∧ out.Perm arr ∧ out.Sorted (· ≤ ·) := by
  obtain ⟨out, heq, hperm, hlen, _, hsort, _, _⟩ :=
    quickSortAux_spec (arr.length + 1) arr 0 ((arr.length : Int) - 1)
      le_rfl (by omega) (by omega)
  refine ⟨out, heq, hperm, ?_⟩
  show List.Pairwise (· ≤ ·) out
  rw [List.pairwise_iff_get]
  intro a b hab
  have hab2 : (a : Nat) < (b : Nat) := hab
  have hbl : (b : Nat) < arr.length := by
    have := b.isLt
    omega
  have h := hsort ((a : Nat) : Int) ((b : Nat) : Int) (by omega) (by omega)
    (by omega)
  rwa [get0_eq_get, get0_eq_get] at h

end QuickSortDemo
